import Mathlib

/-!
Shallow embedding of `src/candle.rs` from the `erfurt` repository.

The Rust code stores `f64` prices and `DateTime<Utc>` timestamps but never
computes with them — it only moves them between containers.  The embedding is
therefore polymorphic: `α` stands for `f64` and `τ` for `DateTime<Utc>`.
`Vec<T>` becomes `List T`, `Option<T>` becomes `Option T`, `usize` indices
become `Nat`.  A Rust `panic!` (an `unwrap()` of `None`, or an out-of-bounds
slice index) is modelled by returning `none` from an `Option`-valued function;
the comments mark every such branch.
-/

universe u

/-- Row view: `struct Candle` (candle.rs lines 4-13). -/
structure Candle (α τ : Type) where
  «open» : α
  high : α
  low : α
  close : α
  volume : Option α
  time : τ
  id : String
deriving DecidableEq, Repr

/-- Columnar store: `struct Candles` (candle.rs lines 15-24). -/
structure Candles (α τ : Type) where
  id : String
  «open» : List α
  high : List α
  low : List α
  close : List α
  volume : Option (List α)
  time : List τ
deriving DecidableEq, Repr

/-- Iterator: `struct CandlesIterator` (candle.rs lines 26-30).  It owns a
full `Candles` value (the Rust code clones the store into it). -/
structure CandlesIterator (α τ : Type) where
  candles : Candles α τ
  idx : Nat
deriving DecidableEq, Repr

variable {α τ : Type}

/-- Helper for `get`: `self.volume.as_ref().map(|x| x[index])` (line 87).
`some none` means "store tracks no volume, the row's volume field is `None`";
`some (some v)` means "volume tracked, element read"; `none` models the Rust
panic when the volume sequence is present but shorter than `index + 1`. -/
def volumeAt (vol : Option (List α)) (index : Nat) : Option (Option α) :=
  match vol with
  | none => some none
  | some xs =>
    match xs[index]? with
    | some v => some (some v)
    | none => none  -- Rust: `x[index]` panics (length invariant violated)

/-- Helper for `last`: `self.volume.as_ref().map(|xs| *xs.last().unwrap())`
(line 111).  `none` models the Rust panic when the volume sequence is present
but empty while `time` is not. -/
def volumeLast (vol : Option (List α)) : Option (Option α) :=
  match vol with
  | none => some none
  | some xs =>
    match xs.getLast? with
    | some v => some (some v)
    | none => none  -- Rust: `unwrap()` panics (length invariant violated)

/-- Owned-store `CandlesExt::get` (candle.rs lines 80-102).
The source checks `index < self.time.len()` and then indexes every sequence;
indexing a sequence shorter than `index + 1` would panic in Rust, modelled by
the catch-all `none` branch (unreachable under the length invariant). -/
def Candles.get (c : Candles α τ) (index : Nat) : Option (Candle α τ) :=
  if index < c.time.length then
    match c.«open»[index]?, c.high[index]?, c.low[index]?, c.close[index]?,
        c.time[index]?, volumeAt c.volume index with
    | some o, some hi, some lo, some cl, some t, some vOpt =>
      some { id := c.id, «open» := o, high := hi, low := lo, close := cl,
             volume := vOpt, time := t }
    | _, _, _, _, _, _ => none  -- Rust: indexing panic, invariant violated
  else
    none

/-- Owned-store `CandlesExt::last` (candle.rs lines 104-114).
`self.time.last()` guards the whole computation; the `unwrap()` calls on the
other sequences panic only when the length invariant is violated, modelled by
the catch-all `none` branch. -/
def Candles.last (c : Candles α τ) : Option (Candle α τ) :=
  match c.time.getLast?, c.«open».getLast?, c.high.getLast?, c.low.getLast?,
      c.close.getLast?, volumeLast c.volume with
  | some t, some o, some hi, some lo, some cl, some vOpt =>
    some { id := c.id, «open» := o, high := hi, low := lo, close := cl,
           volume := vOpt, time := t }
  | _, _, _, _, _, _ => none  -- `none` when time is empty; panic otherwise

/-- Owned-store `CandlesExt::take_last` (candle.rs lines 146-161).
`self.open[len - n..].to_vec()` is `List.drop (len - n)`; in Rust the slice
would panic if a sequence were shorter than `len - n`, which cannot happen
under the length invariant (Lean's `drop` instead truncates silently). -/
def Candles.take_last (c : Candles α τ) (n : Nat) : Option (Candles α τ) :=
  let len := c.time.length
  if len < n then
    none
  else
    some { id := c.id,
           «open» := c.«open».drop (len - n),
           high := c.high.drop (len - n),
           low := c.low.drop (len - n),
           close := c.close.drop (len - n),
           volume := c.volume.map (fun xs => xs.drop (len - n)),
           time := c.time.drop (len - n) }

/-- Field accessors of `impl CandlesExt for Candles` (candle.rs lines
116-144): each returns `&self.field`. -/
def OwnedExt.openAcc (c : Candles α τ) : List α := c.«open»

def OwnedExt.highAcc (c : Candles α τ) : List α := c.high

def OwnedExt.lowAcc (c : Candles α τ) : List α := c.low

def OwnedExt.closeAcc (c : Candles α τ) : List α := c.close

def OwnedExt.volumeAcc (c : Candles α τ) : Option (List α) := c.volume

def OwnedExt.timeAcc (c : Candles α τ) : List τ := c.time

/-- Inherent `Candles::is_empty` (candle.rs lines 224-226). -/
def Candles.is_empty (c : Candles α τ) : Bool := c.time.isEmpty

/-- Inherent `Candles::push` (candle.rs lines 227-244).  The source appends to
`open`, `high`, `low`, `close`, then runs
`if let Some(value) = volume { self.volume.as_mut().unwrap().push(value) }`,
then appends to `time`.  When a volume value is supplied but `self.volume`
is `None`, the `unwrap()` panics — modelled as the result `none`.  When no
volume value is supplied, the volume sequence (present or not) is left
untouched. -/
def Candles.push (c : Candles α τ) (o hi lo cl : α) (v : Option α) (t : τ) :
    Option (Candles α τ) :=
  match v, c.volume with
  | some value, some vs =>
    some { id := c.id,
           «open» := c.«open» ++ [o],
           high := c.high ++ [hi],
           low := c.low ++ [lo],
           close := c.close ++ [cl],
           volume := some (vs ++ [value]),
           time := c.time ++ [t] }
  | some _, none => none  -- Rust: `self.volume.as_mut().unwrap()` panics
  | none, _ =>
    some { id := c.id,
           «open» := c.«open» ++ [o],
           high := c.high ++ [hi],
           low := c.low ++ [lo],
           close := c.close ++ [cl],
           volume := c.volume,
           time := c.time ++ [t] }

/-- Inherent `Candles::iter` (candle.rs lines 245-250): clones the store into the
iterator and starts the cursor at 0. -/
def Candles.iter (c : Candles α τ) : CandlesIterator α τ :=
  { candles := c, idx := 0 }

/-- Method `Iterator::next` of `CandlesIterator` (candle.rs lines 266-273): reads
`self.candles.get(self.idx)`, increments the cursor, returns the row.  The
mutation of `self` is modelled by returning the successor iterator state. -/
def CandlesIterator.next (it : CandlesIterator α τ) :
    Option (Candle α τ) × CandlesIterator α τ :=
  (it.candles.get it.idx, { it with idx := it.idx + 1 })

/-- Iterator state after `n` calls to `next` (discarding the yielded values).
Not part of the source; used to state properties about call sequences. -/
def CandlesIterator.steps (it : CandlesIterator α τ) : Nat → CandlesIterator α τ
  | 0 => it
  | n + 1 => ((it.steps n).next).snd

/-- The borrowed-reference implementation `impl CandlesExt for &Candles`
(candle.rs lines 164-221).  `get` and `last` are written in the source as
`self.to_owned().get(index)` / `self.to_owned().last()`: the reference is
resolved to the underlying store and the owned implementation is invoked on
it, which the embedding renders as a direct call.  `take_last` and the field
accessors duplicate the owned bodies verbatim, so they are transcribed
separately below and compared with the owned versions by theorem. -/
def RefExt.get (c : Candles α τ) (index : Nat) : Option (Candle α τ) :=
  Candles.get c index

/-- Borrowed `&Candles::last` (candle.rs lines 200-203): delegates to the owned
implementation. -/
def RefExt.last (c : Candles α τ) : Option (Candle α τ) :=
  Candles.last c

/-- Borrowed `&Candles::take_last` (candle.rs lines 205-220): a verbatim duplicate of
the owned body. -/
def RefExt.take_last (c : Candles α τ) (n : Nat) : Option (Candles α τ) :=
  let len := c.time.length
  if len < n then
    none
  else
    some { id := c.id,
           «open» := c.«open».drop (len - n),
           high := c.high.drop (len - n),
           low := c.low.drop (len - n),
           close := c.close.drop (len - n),
           volume := c.volume.map (fun xs => xs.drop (len - n)),
           time := c.time.drop (len - n) }

/-- Field accessors of `impl CandlesExt for &Candles` (candle.rs lines
170-198): each returns `&self.field` through the reference. -/
def RefExt.openAcc (c : Candles α τ) : List α := c.«open»

def RefExt.highAcc (c : Candles α τ) : List α := c.high

def RefExt.lowAcc (c : Candles α τ) : List α := c.low

def RefExt.closeAcc (c : Candles α τ) : List α := c.close

def RefExt.volumeAcc (c : Candles α τ) : Option (List α) := c.volume

def RefExt.timeAcc (c : Candles α τ) : List τ := c.time

/-- Volume half of the length invariant (spec §3): if the volume sequence is
present it has the same length as `time`. -/
def Candles.volumeOk (c : Candles α τ) : Bool :=
  match c.volume with
  | none => true
  | some vs => vs.length == c.time.length

/-- The equal-length invariant of spec §3: the five required sequences have
equal length, and the volume sequence, when present, matches it. -/
def Candles.invariant (c : Candles α τ) : Prop :=
  c.«open».length = c.time.length ∧
  c.high.length = c.time.length ∧
  c.low.length = c.time.length ∧
  c.close.length = c.time.length ∧
  c.volumeOk = true

instance (c : Candles α τ) : Decidable c.invariant := by
  unfold Candles.invariant
  infer_instance

/-- One `push` request: the six arguments of `Candles::push`. -/
structure PushArgs (α τ : Type) where
  «open» : α
  high : α
  low : α
  close : α
  volume : Option α
  time : τ
deriving DecidableEq, Repr

/-- A sequence of `push` calls, stopping at the first panic.  Not part of the
source; used to state "stores produced only through documented operations". -/
def pushMany : Candles α τ → List (PushArgs α τ) → Option (Candles α τ)
  | c, [] => some c
  | c, a :: rest =>
    match c.push a.«open» a.high a.low a.close a.volume a.time with
    | none => none
    | some c' => pushMany c' rest

/-! ## Helper lemmas -/

theorem CandlesIterator.steps_spec (it : CandlesIterator α τ) (j : Nat) :
    (it.steps j).candles = it.candles ∧ (it.steps j).idx = it.idx + j := by
  induction j with
  | zero => exact ⟨rfl, rfl⟩
  | succ n ih =>
    refine ⟨ih.1, ?_⟩
    show (it.steps n).idx + 1 = it.idx + (n + 1)
    rw [ih.2]
    omega

theorem Candles.get_of_le (c : Candles α τ) {index : Nat}
    (h : c.time.length ≤ index) : c.get index = none := by
  unfold Candles.get
  rw [if_neg (by omega)]

theorem Candles.get_of_lt (c : Candles α τ) (hinv : c.invariant)
    {index : Nat} (h : index < c.time.length) (dflt : α) (dt : τ) :
    c.get index = some { id := c.id, «open» := c.«open».getD index dflt,
                         high := c.high.getD index dflt,
                         low := c.low.getD index dflt,
                         close := c.close.getD index dflt,
                         volume := c.volume.map (fun vs => vs.getD index dflt),
                         time := c.time.getD index dt } := by
  obtain ⟨h1, h2, h3, h4, h5⟩ := hinv
  have ho : index < c.«open».length := by omega
  have hh : index < c.high.length := by omega
  have hl : index < c.low.length := by omega
  have hc : index < c.close.length := by omega
  have eo : c.«open»[index]? = some (c.«open».getD index dflt) := by
    rw [List.getD_eq_getElem?_getD, List.getElem?_eq_getElem ho]
    rfl
  have eh : c.high[index]? = some (c.high.getD index dflt) := by
    rw [List.getD_eq_getElem?_getD, List.getElem?_eq_getElem hh]
    rfl
  have el : c.low[index]? = some (c.low.getD index dflt) := by
    rw [List.getD_eq_getElem?_getD, List.getElem?_eq_getElem hl]
    rfl
  have ec : c.close[index]? = some (c.close.getD index dflt) := by
    rw [List.getD_eq_getElem?_getD, List.getElem?_eq_getElem hc]
    rfl
  have et : c.time[index]? = some (c.time.getD index dt) := by
    rw [List.getD_eq_getElem?_getD, List.getElem?_eq_getElem h]
    rfl
  have ev : volumeAt c.volume index =
      some (c.volume.map (fun vs => vs.getD index dflt)) := by
    cases hv : c.volume with
    | none => rfl
    | some vs =>
      have hlen : vs.length = c.time.length := by
        simpa [Candles.volumeOk, hv] using h5
      have hvi : index < vs.length := by omega
      simp [volumeAt, List.getElem?_eq_getElem hvi,
        List.getD_eq_getElem?_getD]
  unfold Candles.get
  rw [if_pos h, eo, eh, el, ec, et, ev]

theorem Candles.get_isSome (c : Candles α τ) (hinv : c.invariant)
    {index : Nat} (h : index < c.time.length) :
    (c.get index).isSome = true := by
  obtain ⟨t0, ht⟩ : ∃ t0, c.time[index]? = some t0 :=
    ⟨_, List.getElem?_eq_getElem h⟩
  have ho : index < c.«open».length := by
    obtain ⟨h1, -, -, -, -⟩ := hinv
    omega
  obtain ⟨o0, hoo⟩ : ∃ o0, c.«open»[index]? = some o0 :=
    ⟨_, List.getElem?_eq_getElem ho⟩
  rw [c.get_of_lt hinv h o0 t0]
  rfl

theorem Candles.push_none_volume (c : Candles α τ) (o hi lo cl : α) (t : τ) :
    c.push o hi lo cl none t =
      some { id := c.id, «open» := c.«open» ++ [o], high := c.high ++ [hi],
             low := c.low ++ [lo], close := c.close ++ [cl],
             volume := c.volume, time := c.time ++ [t] } := by
  cases hv : c.volume <;> simp [Candles.push, hv]

theorem Candles.push_some_some (c : Candles α τ) (o hi lo cl value : α)
    (vs : List α) (t : τ) (hv : c.volume = some vs) :
    c.push o hi lo cl (some value) t =
      some { id := c.id, «open» := c.«open» ++ [o], high := c.high ++ [hi],
             low := c.low ++ [lo], close := c.close ++ [cl],
             volume := some (vs ++ [value]), time := c.time ++ [t] } := by
  simp [Candles.push, hv]

theorem Candles.push_some_none (c : Candles α τ) (o hi lo cl value : α)
    (t : τ) (hv : c.volume = none) :
    c.push o hi lo cl (some value) t = none := by
  simp [Candles.push, hv]

theorem Candles.push_step {c c' : Candles α τ} {o hi lo cl : α}
    {v : Option α} {t : τ} (hinv : c.invariant)
    (hv : c.volume.isSome = true → v.isSome = true)
    (h : c.push o hi lo cl v t = some c') :
    c'.invariant ∧ c'.volume.isSome = c.volume.isSome := by
  obtain ⟨h1, h2, h3, h4, h5⟩ := hinv
  cases hva : v with
  | none =>
    cases hcv : c.volume with
    | none =>
      rw [hva, Candles.push_none_volume, Option.some.injEq] at h
      subst h
      refine ⟨⟨?_, ?_, ?_, ?_, ?_⟩, ?_⟩ <;>
        simp [List.length_append, h1, h2, h3, h4, Candles.volumeOk, hcv]
    | some vs => exact absurd (hv (by simp [hcv])) (by simp [hva])
  | some value =>
    cases hcv : c.volume with
    | none =>
      rw [hva, Candles.push_some_none c o hi lo cl value t hcv] at h
      exact absurd h (by simp)
    | some vs =>
      rw [hva, Candles.push_some_some c o hi lo cl value vs t hcv,
        Option.some.injEq] at h
      subst h
      have hlen : vs.length = c.time.length := by
        simpa [Candles.volumeOk, hcv] using h5
      refine ⟨⟨?_, ?_, ?_, ?_, ?_⟩, ?_⟩ <;>
        simp [List.length_append, h1, h2, h3, h4, Candles.volumeOk, hlen, hcv]

theorem pushMany_invariant :
    ∀ (args : List (PushArgs α τ)) (c c' : Candles α τ), c.invariant →
      (∀ a ∈ args, c.volume.isSome = true → a.volume.isSome = true) →
      pushMany c args = some c' → c'.invariant := by
  intro args
  induction args with
  | nil =>
    intro c c' hinv _ h
    rw [pushMany, Option.some.injEq] at h
    exact h ▸ hinv
  | cons a rest ih =>
    intro c c' hinv hvol h
    cases hp : c.push a.«open» a.high a.low a.close a.volume a.time with
    | none =>
      rw [pushMany, hp] at h
      exact absurd h (by simp)
    | some c1 =>
      have h' : pushMany c1 rest = some c' := by
        rw [pushMany, hp] at h
        exact h
      obtain ⟨hinv1, hsame⟩ :=
        Candles.push_step ⟨hinv.1, hinv.2.1, hinv.2.2.1, hinv.2.2.2.1,
          hinv.2.2.2.2⟩ (hvol a (List.mem_cons_self a rest)) hp
      refine ih c1 c' hinv1 ?_ h'
      intro b hb hs
      rw [hsame] at hs
      exact hvol b (List.mem_cons_of_mem a hb) hs

/-! ## Concrete stores used by witnesses and counterexamples -/

/-- A valid two-bar store with volume tracking enabled. -/
def cW : Candles Nat Nat :=
  { id := "BTC", «open» := [1, 2], high := [2, 3], low := [0, 1],
    close := [1, 2], volume := some [5, 6], time := [10, 11] }

/-- A valid one-bar store without volume tracking. -/
def cN : Candles Nat Nat :=
  { id := "ETH", «open» := [7], high := [8], low := [6], close := [7],
    volume := none, time := [100] }

/-- A valid empty store with volume tracking enabled. -/
def cE : Candles Nat Nat :=
  { id := "BTC", «open» := [], high := [], low := [], close := [],
    volume := some [], time := [] }

/-- The result of pushing `(1, 2, 0, 1, some 5, 10)` onto `cE`. -/
def cE1 : Candles Nat Nat :=
  { id := "BTC", «open» := [1], high := [2], low := [0], close := [1],
    volume := some [5], time := [10] }

/-- The (invariant-violating) result of pushing onto `cE` with no volume. -/
def cBad : Candles Nat Nat :=
  { id := "BTC", «open» := [1], high := [2], low := [0], close := [1],
    volume := some [], time := [10] }

/-! ## Claims -/

/-- Claim C1 (corrected).  On a store whose volume tracking is disabled
(`volume` absent), `push` with a supplied volume value does NOT silently
ignore it: the source runs `self.volume.as_mut().unwrap().push(value)`, and
the `unwrap()` of `None` panics — modelled here as the result `none`.  With
no volume supplied, `push` completes and appends the other five fields,
leaving the volume sequence absent. -/
theorem claim1_push_volume_disabled (c : Candles α τ) (o hi lo cl value : α)
    (t : τ) (hdis : c.volume = none) :
    c.push o hi lo cl (some value) t = none ∧
    c.push o hi lo cl none t =
      some { id := c.id, «open» := c.«open» ++ [o], high := c.high ++ [hi],
             low := c.low ++ [lo], close := c.close ++ [cl],
             volume := none, time := c.time ++ [t] } := by
  refine ⟨Candles.push_some_none c o hi lo cl value t hdis, ?_⟩
  rw [Candles.push_none_volume, hdis]

/-- Claim C1 counterexample.  On the concrete volume-disabled store `cN`,
`push` with a supplied volume value yields `none` — the model of the
`unwrap()` panic — so it does not "complete without any error or fault"
appending the other five fields, as the claim states. -/
theorem claim1_counterexample :
    cN.push 9 9 9 9 (some 3) 101 = none := by decide

/-- Witness for `claim1_push_volume_disabled` at the concrete store `cN`. -/
theorem claim1_witness :
    cN.volume = none ∧
    (cN.push 9 9 9 9 (some 3) 101 = none ∧
     cN.push 9 9 9 9 none 101 =
       some { id := cN.id, «open» := cN.«open» ++ [9],
              high := cN.high ++ [9], low := cN.low ++ [9],
              close := cN.close ++ [9], volume := none,
              time := cN.time ++ [101] }) :=
  ⟨by decide, claim1_push_volume_disabled cN 9 9 9 9 3 101 (by decide)⟩

/-- Claim C2 (corrected).  For any valid store and any sequence of `push`
calls each of which supplies a volume value whenever the store tracks volume,
the resulting store satisfies the equal-length invariant.  (The restriction
is forced by `claim2_counterexample`: a documented `push` with no volume on a
volume-tracking store leaves the volume sequence behind the others.) -/
theorem claim2_push_sequence_invariant (c c' : Candles α τ)
    (args : List (PushArgs α τ)) (hinv : c.invariant)
    (hvol : ∀ a ∈ args, c.volume.isSome = true → a.volume.isSome = true)
    (h : pushMany c args = some c') : c'.invariant :=
  pushMany_invariant args c c' hinv hvol h

/-- Claim C2 counterexample.  Starting from the valid volume-tracking store
`cE` (all sequences empty, volume present), the documented operation `push`
with no supplied volume returns normally but produces `cBad`, whose volume
sequence has length 0 while the other sequences have length 1: the claimed
length invariant does not hold for every store produced only through
documented operations. -/
theorem claim2_counterexample :
    cE.invariant ∧
    pushMany cE [{ «open» := 1, high := 2, low := 0, close := 1,
                   volume := none, time := 10 }] = some cBad ∧
    ¬ cBad.invariant := by
  refine ⟨by decide, by decide, ?_⟩
  decide

/-- Witness for `claim2_push_sequence_invariant`: pushing one bar with a
volume value onto the valid tracking store `cE` yields `cE1`, which again
satisfies the invariant. -/
theorem claim2_witness :
    cE.invariant ∧
    (∀ a ∈ [({ «open» := 1, high := 2, low := 0, close := 1,
               volume := some 5, time := 10 } : PushArgs Nat Nat)],
       cE.volume.isSome = true → a.volume.isSome = true) ∧
    pushMany cE [{ «open» := 1, high := 2, low := 0, close := 1,
                   volume := some 5, time := 10 }] = some cE1 ∧
    cE1.invariant :=
  ⟨by decide, by decide, by decide,
    claim2_push_sequence_invariant cE cE1
      [{ «open» := 1, high := 2, low := 0, close := 1, volume := some 5,
         time := 10 }] (by decide) (by decide) (by decide)⟩

/-- Claim C3 (corrected).  After a `push` that returns, every tracked
sequence grows by exactly one and an absent volume sequence stays absent —
PROVIDED a volume value is supplied whenever the volume sequence is present.
(The restriction is forced by `claim3_counterexample`: a returning `push`
with no volume on a volume-tracking store leaves the volume length
unchanged.)  The volume clause is phrased through `Option.map List.length`:
present volume grows by one, absent volume stays absent. -/
theorem claim3_push_growth (c c' : Candles α τ) (o hi lo cl : α)
    (v : Option α) (t : τ)
    (hv : c.volume.isSome = true → v.isSome = true)
    (h : c.push o hi lo cl v t = some c') :
    c'.«open».length = c.«open».length + 1 ∧
    c'.high.length = c.high.length + 1 ∧
    c'.low.length = c.low.length + 1 ∧
    c'.close.length = c.close.length + 1 ∧
    c'.time.length = c.time.length + 1 ∧
    c'.volume.map List.length = c.volume.map (fun vs => vs.length + 1) ∧
    (c.volume = none → c'.volume = none) := by
  cases hva : v with
  | none =>
    cases hcv : c.volume with
    | none =>
      rw [hva, Candles.push_none_volume, Option.some.injEq] at h
      subst h
      simp [hcv, List.length_append]
    | some vs => exact absurd (hv (by simp [hcv])) (by simp [hva])
  | some value =>
    cases hcv : c.volume with
    | none =>
      rw [hva, Candles.push_some_none c o hi lo cl value t hcv] at h
      exact absurd h (by simp)
    | some vs =>
      rw [hva, Candles.push_some_some c o hi lo cl value vs t hcv,
        Option.some.injEq] at h
      subst h
      simp [hcv, List.length_append]

/-- Claim C3 counterexample.  `push` onto the volume-tracking store `cE`
with no supplied volume returns (yielding `cBad`), yet the present volume
sequence still has length 0, not one greater than before the call — against
the claim that after a returning `push` every tracked sequence, including a
present volume sequence, grows by exactly one. -/
theorem claim3_counterexample :
    cE.push 1 2 0 1 none 10 = some cBad ∧
    cE.volume = some [] ∧ cBad.volume = some [] ∧
    cBad.time.length = cE.time.length + 1 := by
  refine ⟨by decide, by decide, by decide, by decide⟩

/-- Witness for `claim3_push_growth` at the concrete store `cE`. -/
theorem claim3_witness :
    (cE.volume.isSome = true → (some (5 : Nat)).isSome = true) ∧
    cE.push 1 2 0 1 (some 5) 10 = some cE1 ∧
    (cE1.«open».length = cE.«open».length + 1 ∧
     cE1.high.length = cE.high.length + 1 ∧
     cE1.low.length = cE.low.length + 1 ∧
     cE1.close.length = cE.close.length + 1 ∧
     cE1.time.length = cE.time.length + 1 ∧
     cE1.volume.map List.length = cE.volume.map (fun vs => vs.length + 1) ∧
     (cE.volume = none → cE1.volume = none)) :=
  ⟨by decide, by decide,
    claim3_push_growth cE cE1 1 2 0 1 (some 5) 10 (by decide) (by decide)⟩

/-- Reading just past the original end of
an appended list yields the appended element. -/
theorem List.getD_concat_length (l : List α) (a d : α) :
    (l ++ [a]).getD l.length d = a := by
  rw [List.getD_eq_getElem?_getD, List.getElem?_concat_length]
  rfl

/-- Claim C4 (confirmed).  For a store of length `k` satisfying the length
invariant: `take_last n` with `n ≤ k` returns a store with the same
identifier whose every sequence — volume included, when present — is the
final `n` elements of the corresponding original sequence in original order,
and whose length is `n`; `take_last 0` returns a valid empty store (not
absence); `take_last n` with `k < n` returns absence. -/
theorem claim4_take_last_spec (c : Candles α τ) (n : Nat)
    (hinv : c.invariant) :
    (c.time.length < n → c.take_last n = none) ∧
    (n ≤ c.time.length →
      c.take_last n =
        some { id := c.id,
               «open» := c.«open».drop (c.«open».length - n),
               high := c.high.drop (c.high.length - n),
               low := c.low.drop (c.low.length - n),
               close := c.close.drop (c.close.length - n),
               volume := c.volume.map (fun xs => xs.drop (xs.length - n)),
               time := c.time.drop (c.time.length - n) } ∧
      (c.take_last n).map (fun s => s.time.length) = some n ∧
      (c.take_last n).map (fun s => s.id) = some c.id) ∧
    c.take_last 0 =
      some { id := c.id, «open» := [], high := [], low := [], close := [],
             volume := c.volume.map (fun _ => ([] : List α)), time := [] } := by
  obtain ⟨h1, h2, h3, h4, h5⟩ := hinv
  refine ⟨?_, ?_, ?_⟩
  · intro hlt
    simp [Candles.take_last, hlt]
  · intro hle
    have hnot : ¬ (c.time.length < n) := by omega
    refine ⟨?_, ?_, ?_⟩
    · cases hv : c.volume with
      | none => simp [Candles.take_last, hnot, hv, h1, h2, h3, h4]
      | some vs =>
        have hlen : vs.length = c.time.length := by
          simpa [Candles.volumeOk, hv] using h5
        simp [Candles.take_last, hnot, hv, h1, h2, h3, h4, hlen]
    · simp [Candles.take_last, hnot]
      omega
    · simp [Candles.take_last, hnot]
  · have eo : c.«open».drop c.time.length = [] :=
      List.drop_eq_nil_of_le (by omega)
    have eh : c.high.drop c.time.length = [] :=
      List.drop_eq_nil_of_le (by omega)
    have el : c.low.drop c.time.length = [] :=
      List.drop_eq_nil_of_le (by omega)
    have ec : c.close.drop c.time.length = [] :=
      List.drop_eq_nil_of_le (by omega)
    have et : c.time.drop c.time.length = [] :=
      List.drop_eq_nil_of_le (by omega)
    have ev : c.volume.map (fun xs => xs.drop c.time.length) =
        c.volume.map (fun _ => ([] : List α)) := by
      cases hv : c.volume with
      | none => rfl
      | some vs =>
        have hlen : vs.length = c.time.length := by
          simpa [Candles.volumeOk, hv] using h5
        simp [List.drop_eq_nil_of_le (by omega : vs.length ≤ c.time.length)]
    simp [Candles.take_last, eo, eh, el, ec, et, ev]

/-- Witness for `claim4_take_last_spec` at the two-bar store `cW`, `n = 1`. -/
theorem claim4_witness :
    cW.invariant ∧
    ((cW.time.length < 1 → cW.take_last 1 = none) ∧
     (1 ≤ cW.time.length →
       cW.take_last 1 =
         some { id := cW.id,
                «open» := cW.«open».drop (cW.«open».length - 1),
                high := cW.high.drop (cW.high.length - 1),
                low := cW.low.drop (cW.low.length - 1),
                close := cW.close.drop (cW.close.length - 1),
                volume := cW.volume.map (fun xs => xs.drop (xs.length - 1)),
                time := cW.time.drop (cW.time.length - 1) } ∧
       (cW.take_last 1).map (fun s => s.time.length) = some 1 ∧
       (cW.take_last 1).map (fun s => s.id) = some cW.id) ∧
     cW.take_last 0 =
       some { id := cW.id, «open» := [], high := [], low := [], close := [],
              volume := cW.volume.map (fun _ => ([] : List Nat)),
              time := [] }) :=
  ⟨by decide, claim4_take_last_spec cW 1 (by decide)⟩

/-- Claim C6 (confirmed).  Under the length invariant, `get index` returns
absence when `index` is at least the length of the time sequence, and
otherwise a Row whose open, high, low, close and time fields are the elements
of the corresponding sequences at `index` (written with `getD`, which under
the bound equals the element), whose volume is present exactly when the
volume sequence is present (and is then its element at `index`), and whose
identifier is a copy of the store's identifier. -/
theorem claim6_get_spec (c : Candles α τ) (index : Nat) (dflt : α) (dt : τ)
    (hinv : c.invariant) :
    (c.time.length ≤ index → c.get index = none) ∧
    (index < c.time.length →
      c.get index =
        some { id := c.id, «open» := c.«open».getD index dflt,
               high := c.high.getD index dflt,
               low := c.low.getD index dflt,
               close := c.close.getD index dflt,
               volume := c.volume.map (fun vs => vs.getD index dflt),
               time := c.time.getD index dt } ∧
      (c.get index).map (fun r => r.volume.isSome) =
        some c.volume.isSome) := by
  refine ⟨fun h => c.get_of_le h, fun h => ⟨c.get_of_lt hinv h dflt dt, ?_⟩⟩
  rw [c.get_of_lt hinv h dflt dt]
  simp [Option.isSome_map ..]

/-- Witness for `claim6_get_spec` at the two-bar store `cW`, `index = 0`. -/
theorem claim6_witness :
    cW.invariant ∧
    ((cW.time.length ≤ 0 → cW.get 0 = none) ∧
     (0 < cW.time.length →
       cW.get 0 =
         some { id := cW.id, «open» := cW.«open».getD 0 0,
                high := cW.high.getD 0 0, low := cW.low.getD 0 0,
                close := cW.close.getD 0 0,
                volume := cW.volume.map (fun vs => vs.getD 0 0),
                time := cW.time.getD 0 0 } ∧
       (cW.get 0).map (fun r => r.volume.isSome) =
         some cW.volume.isSome)) :=
  ⟨by decide, claim6_get_spec cW 0 0 0 (by decide)⟩

/-- Claim C7 (confirmed).  Under the length invariant, `last()` on an empty
store returns absence (the `time.last()` guard short-circuits before any
`unwrap`), and on a non-empty store returns exactly `get(length - 1)`. -/
theorem claim7_last_eq_get (c : Candles α τ) (hinv : c.invariant) :
    (c.time = [] → c.last = none) ∧
    (c.time ≠ [] → c.last = c.get (c.time.length - 1)) := by
  obtain ⟨h1, h2, h3, h4, h5⟩ := hinv
  constructor
  · intro he
    simp [Candles.last, he]
  · intro hne
    have hpos : 0 < c.time.length := List.length_pos.mpr hne
    have hklt : c.time.length - 1 < c.time.length := by omega
    have ho : c.time.length - 1 < c.«open».length := by omega
    have hh : c.time.length - 1 < c.high.length := by omega
    have hl : c.time.length - 1 < c.low.length := by omega
    have hc : c.time.length - 1 < c.close.length := by omega
    have eo : c.«open».getLast? = c.«open»[c.time.length - 1]? := by
      rw [List.getLast?_eq_getElem? c.«open», h1]
    have eh : c.high.getLast? = c.high[c.time.length - 1]? := by
      rw [List.getLast?_eq_getElem? c.high, h2]
    have el : c.low.getLast? = c.low[c.time.length - 1]? := by
      rw [List.getLast?_eq_getElem? c.low, h3]
    have ec : c.close.getLast? = c.close[c.time.length - 1]? := by
      rw [List.getLast?_eq_getElem? c.close, h4]
    have et : c.time.getLast? = c.time[c.time.length - 1]? :=
      List.getLast?_eq_getElem? c.time
    have ev : volumeLast c.volume = volumeAt c.volume (c.time.length - 1) := by
      cases hv : c.volume with
      | none => rfl
      | some vs =>
        have hlen : vs.length = c.time.length := by
          simpa [Candles.volumeOk, hv] using h5
        simp [volumeLast, volumeAt, List.getLast?_eq_getElem? vs, hlen]
    obtain ⟨o0, exo⟩ : ∃ x, c.«open»[c.time.length - 1]? = some x :=
      ⟨_, List.getElem?_eq_getElem ho⟩
    obtain ⟨hi0, exh⟩ : ∃ x, c.high[c.time.length - 1]? = some x :=
      ⟨_, List.getElem?_eq_getElem hh⟩
    obtain ⟨lo0, exl⟩ : ∃ x, c.low[c.time.length - 1]? = some x :=
      ⟨_, List.getElem?_eq_getElem hl⟩
    obtain ⟨cl0, exc⟩ : ∃ x, c.close[c.time.length - 1]? = some x :=
      ⟨_, List.getElem?_eq_getElem hc⟩
    obtain ⟨t0, ext⟩ : ∃ x, c.time[c.time.length - 1]? = some x :=
      ⟨_, List.getElem?_eq_getElem hklt⟩
    obtain ⟨w0, exv⟩ : ∃ w, volumeAt c.volume (c.time.length - 1) = some w := by
      cases hv : c.volume with
      | none => exact ⟨none, rfl⟩
      | some vs =>
        have hlen : vs.length = c.time.length := by
          simpa [Candles.volumeOk, hv] using h5
        have hvi : c.time.length - 1 < vs.length := by omega
        obtain ⟨v0, hv0⟩ : ∃ x, vs[c.time.length - 1]? = some x :=
          ⟨_, List.getElem?_eq_getElem hvi⟩
        exact ⟨some v0, by simp [volumeAt, hv0]⟩
    unfold Candles.last Candles.get
    rw [if_pos hklt, eo, eh, el, ec, et, ev, exo, exh, exl, exc, ext, exv]

/-- Witness for `claim7_last_eq_get` at the non-empty store `cW`. -/
theorem claim7_witness :
    cW.invariant ∧
    ((cW.time = [] → cW.last = none) ∧
     (cW.time ≠ [] → cW.last = cW.get (cW.time.length - 1))) :=
  ⟨by decide, claim7_last_eq_get cW (by decide)⟩

theorem Candles.push_time_len {c c' : Candles α τ} {o hi lo cl : α}
    {v : Option α} {t : τ} (h : c.push o hi lo cl v t = some c') :
    c'.time.length = c.time.length + 1 := by
  cases hva : v with
  | none =>
    rw [hva, Candles.push_none_volume, Option.some.injEq] at h
    subst h
    simp [List.length_append]
  | some value =>
    cases hcv : c.volume with
    | none =>
      rw [hva, Candles.push_some_none c o hi lo cl value t hcv] at h
      exact absurd h (by simp)
    | some vs =>
      rw [hva, Candles.push_some_some c o hi lo cl value vs t hcv,
        Option.some.injEq] at h
      subst h
      simp [List.length_append]

/-- Claim C5 (confirmed).  For a store of length `k` satisfying the length
invariant, the `j`-th call to `next` on a fresh iterator yields exactly
`get(j)`: a present Row for every `j < k` (so the first `k` calls yield the
`k` rows in index order) and absence for every `j ≥ k` — exhaustion is
permanent, no later call yields a value again. -/
theorem claim5_iterator_totality (c : Candles α τ) (j : Nat)
    (hinv : c.invariant) :
    ((c.iter.steps j).next).fst = c.get j ∧
    (j < c.time.length → (((c.iter.steps j).next).fst).isSome = true) ∧
    (c.time.length ≤ j → ((c.iter.steps j).next).fst = none) := by
  have hs := CandlesIterator.steps_spec c.iter j
  have hfst : ((c.iter.steps j).next).fst = c.get j := by
    show (c.iter.steps j).candles.get (c.iter.steps j).idx = c.get j
    rw [hs.1, hs.2]
    show c.get (0 + j) = c.get j
    rw [Nat.zero_add]
  refine ⟨hfst, fun h => ?_, fun h => ?_⟩
  · rw [hfst]
    exact c.get_isSome hinv h
  · rw [hfst]
    exact c.get_of_le h

/-- Witness for `claim5_iterator_totality` at the two-bar store `cW` with
`j = 2` (the first call past the end). -/
theorem claim5_witness :
    cW.invariant ∧
    (((cW.iter.steps 2).next).fst = cW.get 2 ∧
     (2 < cW.time.length → (((cW.iter.steps 2).next).fst).isSome = true) ∧
     (cW.time.length ≤ 2 → ((cW.iter.steps 2).next).fst = none)) :=
  ⟨by decide, claim5_iterator_totality cW 2 (by decide)⟩

/-- Claim C8 (confirmed).  `iter` stores an independent snapshot: the
iterator created from `c` holds exactly `c`, and every one of its yields is
determined by `c` alone (`get` on the snapshot), whatever `push` later did to
the store.  In particular, after a `push` that produced `c'`, the old
iterator still yields absence at cursor `k = length of c`, even though the
mutated store `c'` has a row there (shown under the invariant and a volume
argument matching the tracking state). -/
theorem claim8_snapshot_isolation (c c' : Candles α τ) (o hi lo cl : α)
    (v : Option α) (t : τ) (j : Nat)
    (h : c.push o hi lo cl v t = some c') :
    (c.iter).candles = c ∧
    ((c.iter.steps j).next).fst = c.get j ∧
    ((c.iter.steps c.time.length).next).fst = none ∧
    (c.invariant → v.isSome = c.volume.isSome →
      (c'.get c.time.length).isSome = true) := by
  have hyield : ∀ m, ((c.iter.steps m).next).fst = c.get m := by
    intro m
    have hs := CandlesIterator.steps_spec c.iter m
    show (c.iter.steps m).candles.get (c.iter.steps m).idx = c.get m
    rw [hs.1, hs.2]
    show c.get (0 + m) = c.get m
    rw [Nat.zero_add]
  refine ⟨rfl, hyield j, ?_, ?_⟩
  · rw [hyield c.time.length]
    exact c.get_of_le (Nat.le_refl _)
  · intro hinv hveq
    obtain ⟨hinv', -⟩ :=
      Candles.push_step hinv (fun hs => hveq.trans hs) h
    have hk : c.time.length < c'.time.length := by
      rw [Candles.push_time_len h]
      omega
    exact c'.get_isSome hinv' hk

/-- The result of pushing `(3, 4, 2, 3, some 7, 12)` onto `cW`. -/
def cW' : Candles Nat Nat :=
  { id := "BTC", «open» := [1, 2, 3], high := [2, 3, 4], low := [0, 1, 2],
    close := [1, 2, 3], volume := some [5, 6, 7], time := [10, 11, 12] }

/-- Witness for `claim8_snapshot_isolation`: push onto `cW` giving `cW'`;
the iterator created from `cW` still yields from the two-bar snapshot. -/
theorem claim8_witness :
    cW.push 3 4 2 3 (some 7) 12 = some cW' ∧
    ((cW.iter).candles = cW ∧
     ((cW.iter.steps 0).next).fst = cW.get 0 ∧
     ((cW.iter.steps cW.time.length).next).fst = none ∧
     (cW.invariant → (some (7 : Nat)).isSome = cW.volume.isSome →
       (cW'.get cW.time.length).isSome = true)) :=
  ⟨by decide,
    claim8_snapshot_isolation cW cW' 3 4 2 3 (some 7) 12 0 (by decide)⟩

/-- Claim C9 (confirmed).  The borrowed-reference implementation
(`impl CandlesExt for &Candles`) returns exactly what the owned
implementation returns on an equal store, for `get`, `last`, `take_last`
and all six field accessors. -/
theorem claim9_ref_transparent (c : Candles α τ) (index n : Nat) :
    RefExt.get c index = c.get index ∧
    RefExt.last c = c.last ∧
    RefExt.take_last c n = c.take_last n ∧
    RefExt.openAcc c = OwnedExt.openAcc c ∧
    RefExt.highAcc c = OwnedExt.highAcc c ∧
    RefExt.lowAcc c = OwnedExt.lowAcc c ∧
    RefExt.closeAcc c = OwnedExt.closeAcc c ∧
    RefExt.volumeAcc c = OwnedExt.volumeAcc c ∧
    RefExt.timeAcc c = OwnedExt.timeAcc c :=
  ⟨rfl, rfl, rfl, rfl, rfl, rfl, rfl, rfl, rfl⟩

/-- Claim C10 (confirmed).  On a valid store of length `k` whose volume
tracking matches the presence of the supplied volume argument, after
`push(o, hi, lo, cl, v, t)` succeeds, `get(k)` on the result returns the Row
made of exactly the pushed values together with the store's identifier. -/
theorem claim10_push_then_get (c c' : Candles α τ) (o hi lo cl : α)
    (v : Option α) (t : τ) (hinv : c.invariant)
    (hv : v.isSome = c.volume.isSome)
    (h : c.push o hi lo cl v t = some c') :
    c'.get c.time.length =
      some { id := c.id, «open» := o, high := hi, low := lo, close := cl,
             volume := v, time := t } := by
  obtain ⟨h1, h2, h3, h4, h5⟩ := hinv
  obtain ⟨hinv', -⟩ :=
    Candles.push_step ⟨h1, h2, h3, h4, h5⟩ (fun hs => hv.trans hs) h
  have hk : c.time.length < c'.time.length := by
    rw [Candles.push_time_len h]
    omega
  have hcomp : c'.id = c.id ∧ c'.«open» = c.«open» ++ [o] ∧
      c'.high = c.high ++ [hi] ∧ c'.low = c.low ++ [lo] ∧
      c'.close = c.close ++ [cl] ∧ c'.time = c.time ++ [t] ∧
      ((v = none → c'.volume = c.volume) ∧
       ∀ value vs, v = some value → c.volume = some vs →
         c'.volume = some (vs ++ [value])) := by
    cases hva : v with
    | none =>
      rw [hva, Candles.push_none_volume, Option.some.injEq] at h
      subst h
      exact ⟨rfl, rfl, rfl, rfl, rfl, rfl, fun _ => rfl,
        fun value vs hv1 _ => nomatch hv1⟩
    | some value0 =>
      rw [hva] at h hv
      cases hcv : c.volume with
      | none =>
        rw [hcv] at hv
        simp at hv
      | some vs0 =>
        rw [Candles.push_some_some c o hi lo cl value0 vs0 t hcv,
          Option.some.injEq] at h
        subst h
        refine ⟨rfl, rfl, rfl, rfl, rfl, rfl, ?_, ?_⟩
        · intro hnone
          exact Option.noConfusion hnone
        intro value vs hv1 hv2
        cases hv1
        rw [Option.some.injEq] at hv2
        subst hv2
        rfl
  obtain ⟨hid, ho, hhi2, hlo2, hcl2, hti, hvol⟩ := hcomp
  rw [c'.get_of_lt hinv' hk o t, Option.some.injEq]
  have e1 : c'.«open».getD c.time.length o = o := by
    rw [ho, ← h1, List.getD_concat_length]
  have e2 : c'.high.getD c.time.length o = hi := by
    rw [hhi2, ← h2, List.getD_concat_length]
  have e3 : c'.low.getD c.time.length o = lo := by
    rw [hlo2, ← h3, List.getD_concat_length]
  have e4 : c'.close.getD c.time.length o = cl := by
    rw [hcl2, ← h4, List.getD_concat_length]
  have e5 : c'.time.getD c.time.length t = t := by
    rw [hti, List.getD_concat_length]
  have e6 : c'.volume.map (fun vs => vs.getD c.time.length o) = v := by
    cases hva : v with
    | none =>
      have hnone : c.volume = none := by
        cases hcv2 : c.volume with
        | none => rfl
        | some vs =>
          rw [hva, hcv2] at hv
          simp at hv
      rw [hvol.1 hva, hnone]
      rfl
    | some value =>
      obtain ⟨vs, hcv2⟩ : ∃ vs, c.volume = some vs := by
        cases hcv2 : c.volume with
        | some vs => exact ⟨vs, rfl⟩
        | none =>
          rw [hva, hcv2] at hv
          simp at hv
      rw [hvol.2 value vs hva hcv2]
      have hlen : vs.length = c.time.length := by
        simpa [Candles.volumeOk, hcv2] using h5
      simp [← hlen, List.getD_concat_length]
  rw [hid, e1, e2, e3, e4, e5, e6]

/-- Witness for `claim10_push_then_get`: pushing `(3, 4, 2, 3, some 7, 12)`
onto `cW` (length 2) and reading `get(2)` on the result recovers exactly the
pushed bar. -/
theorem claim10_witness :
    cW.invariant ∧ (some (7 : Nat)).isSome = cW.volume.isSome ∧
    cW.push 3 4 2 3 (some 7) 12 = some cW' ∧
    cW'.get cW.time.length =
      some { id := cW.id, «open» := 3, high := 4, low := 2, close := 3,
             volume := some 7, time := 12 } :=
  ⟨by decide, by decide, by decide,
    claim10_push_then_get cW cW' 3 4 2 3 (some 7) 12 (by decide) (by decide)
      (by decide)⟩
